import Mathlib

/-!
Shallow embedding of the rigid-body dynamics mixin in
`roboticstoolbox/robot/Dynamics.py`.

Machine floats are idealised as exact rationals.  The IEEE special values
(infinities, NaN) that decide the behaviour of `paycap` are modelled exactly
by the type `RFloat`.  The inverse-dynamics primitive `rne`, the Jacobians
`jacobe`/`jacob0`, and the Link class live outside the embedded file and are
treated as external collaborators, so they appear as abstract function fields
of `Robot`; `rne` is a bound method reading the robot's link list, which is
modelled by the field `rneOf` applied to the current `links`, so friction-free
variants produced by `nofriction` change the oracle through the links.
-/

namespace Dynamics

variable {n : ℕ}

abbrev Vec (n : ℕ) := Fin n → ℚ

/-- The zero gravity vector `[0, 0, 0]` passed as `grav` in the probes. -/
def g0 : Fin 3 → ℚ := ![0, 0, 0]

/-- Per-joint dynamic parameters of a Link (the Link class is an external
collaborator; only the fields the dynamics code reads are modelled). -/
structure Link where
  m : ℚ
  r : Fin 3 → ℚ
  I : Matrix (Fin 3) (Fin 3) ℚ
  Jm : ℚ
  G : ℚ
  B : ℚ
  Tc : ℚ × ℚ
  sigma : Bool

/-- Modelled from the spec: `Link.nofriction` (defined in the external Link
class) returns a copy of the link with the selected friction coefficients
zeroed — the Coulomb pair `Tc` when `coulomb`, the viscous coefficient `B`
when `viscous` — and all other parameters identical. -/
def Link.nofriction (l : Link) (coulomb viscous : Bool) : Link :=
  { l with Tc := if coulomb then (0, 0) else l.Tc,
           B := if viscous then 0 else l.B }

/-- A serial-link robot: link parameters plus the external collaborators
(inverse-dynamics oracle and Jacobians) as abstract functions. -/
structure Robot (n : ℕ) where
  name : String
  gravity : Fin 3 → ℚ
  qcfg : Vec n
  links : Fin n → Link
  rneOf : (Fin n → Link) → Vec n → Vec n → Vec n → (Fin 3 → ℚ) → Vec n
  jacobe : Vec n → Matrix (Fin 6) (Fin n) ℚ
  jacob0 : Vec n → Matrix (Fin 6) (Fin n) ℚ

/-- The bound inverse-dynamics method: the oracle applied to the robot's
current links. -/
def Robot.rne (R : Robot n) : Vec n → Vec n → Vec n → (Fin 3 → ℚ) → Vec n :=
  R.rneOf R.links

/-- Modelled from the spec: the batched calling convention of the oracle —
matrix arguments are mapped column-wise, each column an independent
single-configuration call. -/
def Robot.rneB (R : Robot n) {k : ℕ} (Q Qd Qdd : Matrix (Fin n) (Fin k) ℚ)
    (grav : Fin 3 → ℚ) : Matrix (Fin n) (Fin k) ℚ :=
  fun a j => R.rne (fun b => Q b j) (fun b => Qd b j) (fun b => Qdd b j) grav a

/-- `nofriction`: shallow-copy the robot, tag the name, and replace the links
by friction-zeroed copies. -/
def Robot.nofriction (R : Robot n) (coulomb viscous : Bool) : Robot n :=
  { R with name := "NF/" ++ R.name,
           links := fun i => (R.links i).nofriction coulomb viscous }

/-- `np.linalg.inv` on rationals: adjugate over determinant.  (NumPy raises
on a singular argument; theorems about `accel` therefore carry a nonzero
determinant hypothesis.) -/
def minv {m : ℕ} (A : Matrix (Fin m) (Fin m) ℚ) : Matrix (Fin m) (Fin m) ℚ :=
  if A.det = 0 then 0 else A.det⁻¹ • A.adjugate

theorem minv_eq_inv {m : ℕ} (A : Matrix (Fin m) (Fin m) ℚ) : minv A = A⁻¹ := by
  rw [Matrix.inv_def, Ring.inverse_eq_inv]
  unfold minv
  by_cases h : A.det = 0
  · simp [h]
  · simp [h]

/-- `accel` (Walker–Orin method 1), batched form: for each column `i`, probe
the oracle with `qI = q[:, i]` repeated, zero velocity, identity acceleration
and zero gravity to obtain `m`; obtain the bias torque from an oracle call at
`(q[:, i], qd[:, i], 0)` with the robot's gravity; return
`inv(m) @ (torque[:, i] - tau)`.  The single-vector entry point is the
one-column instance (`qdd[:, 0]`). -/
def accel (R : Robot n) {k : ℕ} (q qd torque : Matrix (Fin n) (Fin k) ℚ) :
    Matrix (Fin n) (Fin k) ℚ := fun a i =>
  (minv (R.rneB (Matrix.of fun r (_ : Fin n) => q r i) 0 1 g0)).mulVec
    (fun b => torque b i -
      R.rne (fun b' => q b' i) (fun b' => qd b' i) 0 R.gravity b) a

/-- Single-configuration `accel` (the `trajn == 1` path, returning column 0). -/
def accelV (R : Robot n) (q qd tau : Vec n) : Vec n :=
  fun a => accel R (Matrix.of fun r (_ : Fin 1) => q r)
    (Matrix.of fun r _ => qd r) (Matrix.of fun r _ => tau r) a 0

/-- Unit coordinate vector `e_j`. -/
def unitVec (j : Fin n) : Vec n := fun a => if a = j then 1 else 0

/-- The mass matrix as the spec describes it: column `j` is the oracle's
torque response to unit acceleration of joint `j` at zero velocity and zero
gravity. -/
def massMatrix (R : Robot n) (q : Vec n) : Matrix (Fin n) (Fin n) ℚ :=
  fun a j => R.rne q 0 (unitVec j) g0 a

/-- The combined gravity and velocity-coupling torque: one oracle call at
`(q, qd, 0)` under the robot's gravity. -/
def biasTorque (R : Robot n) (q qd : Vec n) : Vec n :=
  R.rne q qd 0 R.gravity

/-- `inertia(q)`: the `n` unit-acceleration probes issued as one batched
oracle call (zero velocity, zero gravity). -/
def inertia (R : Robot n) (q : Vec n) : Matrix (Fin n) (Fin n) ℚ :=
  R.rneB (Matrix.of fun r (_ : Fin n) => q r) 0 1 g0

/-- `itorque(q, qdd)`: a single oracle call at `(q, 0, qdd)` with zero
gravity. -/
def itorque (R : Robot n) (q qdd : Vec n) : Vec n :=
  R.rne q 0 qdd g0

theorem rneB_probe_eq_massMatrix (R : Robot n) (q : Vec n) :
    R.rneB (Matrix.of fun r (_ : Fin n) => q r) 0 1 g0 = massMatrix R q := by
  funext a j
  show R.rne q (fun b => (0 : Matrix (Fin n) (Fin n) ℚ) b j)
      (fun b => (1 : Matrix (Fin n) (Fin n) ℚ) b j) g0 a = _
  have h1 : (fun b => (1 : Matrix (Fin n) (Fin n) ℚ) b j) = unitVec j := by
    funext b
    simp [Matrix.one_apply, unitVec]
  have h0 : (fun b => (0 : Matrix (Fin n) (Fin n) ℚ) b j) = (0 : Vec n) := rfl
  rw [h0, h1]
  rfl

/-- Claim C1: for every configuration, velocity and torque input (batched
column-wise; a plain vector is the one-column instance), every column `i` of
`accel(q, qd, torque)` equals `M⁻¹ (torque_i - tau_bias_i)`, where `M` is the
mass matrix obtained from the `n` unit-acceleration probes at zero velocity
and zero gravity on column `i`'s own configuration (column `j` from
acceleration `e_j`), and `tau_bias` is the single oracle call at
`(q_i, qd_i, 0, gravity)` — each column using its own `M` and `tau_bias`. -/
theorem accel_unit_probe_inverse (R : Robot n) (k : ℕ)
    (q qd torque : Matrix (Fin n) (Fin k) ℚ) (i : Fin k)
    (hdet : (massMatrix R (fun b => q b i)).det ≠ 0) :
    (fun a => accel R q qd torque a i)
      = (massMatrix R (fun b => q b i))⁻¹.mulVec
          (fun b => torque b i -
            biasTorque R (fun b' => q b' i) (fun b' => qd b' i) b) := by
  funext a
  show (minv (R.rneB (Matrix.of fun r (_ : Fin n) => q r i) 0 1 g0)).mulVec _ a = _
  rw [rneB_probe_eq_massMatrix, minv_eq_inv]
  rfl

/-- A link with benign parameters, used to build concrete robots. -/
def L0 : Link := ⟨1, fun _ => 0, 0, 0, 1, 0, (0, 0), false⟩

/-- A one-joint robot whose oracle returns the acceleration argument. -/
def R1 : Robot 1 :=
  ⟨"r", fun _ => 0, fun _ => 0, fun _ => L0,
   fun _ _ _ qdd _ => qdd, fun _ => 0, fun _ => 0⟩

theorem accel_unit_probe_inverse_witness :
    (fun a => accel R1 (Matrix.of fun _ (_ : Fin 1) => (3 : ℚ))
        (Matrix.of fun _ _ => 1) (Matrix.of fun _ _ => 5) a 0)
      = (massMatrix R1 (fun b => Matrix.of (fun _ (_ : Fin 1) => (3 : ℚ)) b 0))⁻¹.mulVec
          (fun b => Matrix.of (fun _ (_ : Fin 1) => (5 : ℚ)) b 0 -
            biasTorque R1 (fun b' => Matrix.of (fun _ (_ : Fin 1) => (3 : ℚ)) b' 0)
              (fun b' => Matrix.of (fun _ (_ : Fin 1) => (1 : ℚ)) b' 0) b) :=
  accel_unit_probe_inverse R1 1 _ _ _ 0 (by
    simp [massMatrix, Robot.rne, R1, unitVec, Matrix.det_fin_one])

/-- Claim C5: under the hypothesis that the oracle is linear in its
acceleration argument at zero velocity and zero gravity,
`itorque(q, qdd)` equals `inertia(q) @ qdd`. -/
theorem itorque_eq_inertia_mulVec (R : Robot n) (q qdd : Vec n)
    (hlin : ∀ (c : ℚ) (x y : Vec n),
      R.rne q 0 (c • x + y) g0 = c • R.rne q 0 x g0 + R.rne q 0 y g0) :
    itorque R q qdd = (inertia R q).mulVec qdd := by
  have h0 : R.rne q 0 0 g0 = 0 := by
    have h := hlin 1 0 0
    rw [one_smul, add_zero, one_smul] at h
    have h2 : R.rne q 0 0 g0 + 0 = R.rne q 0 0 g0 + R.rne q 0 0 g0 := by
      rw [add_zero]; exact h
    exact (add_left_cancel h2).symm
  have hsum : ∀ s : Finset (Fin n),
      R.rne q 0 (∑ j ∈ s, qdd j • unitVec j) g0
        = ∑ j ∈ s, qdd j • R.rne q 0 (unitVec j) g0 := by
    intro s
    induction s using Finset.induction_on with
    | empty => simpa using h0
    | insert hnotmem ih =>
      rw [Finset.sum_insert hnotmem, Finset.sum_insert hnotmem, hlin, ih]
  have hqdd : qdd = ∑ j, qdd j • unitVec j := by
    funext b
    simp [unitVec, Finset.sum_apply, mul_ite]
  have hkey : R.rne q 0 qdd g0 = ∑ j, qdd j • R.rne q 0 (unitVec j) g0 := by
    conv_lhs => rw [hqdd]
    exact hsum Finset.univ
  funext a
  show R.rne q 0 qdd g0 a = _
  rw [hkey]
  have hIn : ∀ j a', inertia R q a' j = R.rne q 0 (unitVec j) g0 a' := by
    intro j a'
    have := congrFun (congrFun (rneB_probe_eq_massMatrix R q) a') j
    exact this
  rw [Matrix.mulVec]
  simp only [Finset.sum_apply, Pi.smul_apply, smul_eq_mul]
  rw [show ∀ v w : Fin n → ℚ, Matrix.dotProduct v w = ∑ j, v j * w j from fun _ _ => rfl]
  refine Finset.sum_congr rfl (fun j _ => ?_)
  rw [hIn j a, mul_comm]

theorem itorque_eq_inertia_mulVec_witness :
    itorque R1 (fun _ => 2) (fun _ => 7)
      = (inertia R1 (fun _ => 2)).mulVec (fun _ => 7) :=
  itorque_eq_inertia_mulVec R1 _ _ (fun _ _ _ => rfl)

/-- `QD` with `QD[i] = QD[j] = 1`, all other entries `0` (the paired probe;
for `i ≠ j` the two assignments commute into one indicator). -/
def pairQD (i j : Fin n) : Vec n := fun a => if a = i ∨ a = j then 1 else 0

/-- `Csq` of `coriolis`: column `i` is the friction-free oracle's torque for
a unit velocity on joint `i` alone, zero acceleration, zero gravity. -/
def coriolisCsq (R : Robot n) (q : Vec n) : Matrix (Fin n) (Fin n) ℚ :=
  fun a i => (R.nofriction true true).rne q (unitVec i) 0 g0 a

/-- The paired-probe accumulation of `coriolis`: the loop over pairs
`i < j` adds `(tau - Csq[:, j] - Csq[:, i]) * qd[i] / 2` into column `j` and
`(tau - Csq[:, j] - Csq[:, i]) * qd[j] / 2` into column `i`; the additive
accumulation is rendered as a sum over the pairs. -/
def coriolisPairs (R : Robot n) (q qd : Vec n) : Matrix (Fin n) (Fin n) ℚ :=
  fun a c =>
    ∑ i : Fin n, ∑ j ∈ Finset.Ioi i,
      ((if c = j then
          ((R.nofriction true true).rne q (pairQD i j) 0 g0 a
            - coriolisCsq R q a j - coriolisCsq R q a i) * qd i / 2
        else 0)
      + (if c = i then
          ((R.nofriction true true).rne q (pairQD i j) 0 g0 a
            - coriolisCsq R q a j - coriolisCsq R q a i) * qd j / 2
        else 0))

/-- `coriolis(q, qd)` (single configuration): the pair accumulation plus
`Csq @ diag(qd)`. -/
def coriolis (R : Robot n) (q qd : Vec n) : Matrix (Fin n) (Fin n) ℚ :=
  coriolisPairs R q qd + coriolisCsq R q * Matrix.diagonal qd

/-- The friction-free links exactly as the spec words them: both the Coulomb
pair and the viscous coefficient zeroed, everything else identical. -/
def ffLinks (R : Robot n) : Fin n → Link :=
  fun i => { R.links i with Tc := (0, 0), B := 0 }

/-- `Csq` as the spec describes it, probing the oracle on the friction-free
links. -/
def coriolisCsqSpec (R : Robot n) (q : Vec n) : Matrix (Fin n) (Fin n) ℚ :=
  fun a i => R.rneOf (ffLinks R) q (unitVec i) 0 g0 a

/-- The Coriolis matrix as claim C2 describes it: for each unordered pair the
cross term (paired probe minus both single-joint centripetal columns) is
distributed into column `c` from pairs `(i, c)` with weight `qd i / 2` and
from pairs `(c, j)` with weight `qd j / 2`, and the centripetal columns are
folded in as `Csq @ diag(qd)`. -/
def coriolisSpec (R : Robot n) (q qd : Vec n) : Matrix (Fin n) (Fin n) ℚ :=
  fun a c =>
    (∑ i ∈ Finset.Iio c,
      (R.rneOf (ffLinks R) q (pairQD i c) 0 g0 a
        - coriolisCsqSpec R q a c - coriolisCsqSpec R q a i) * qd i / 2)
  + (∑ j ∈ Finset.Ioi c,
      (R.rneOf (ffLinks R) q (pairQD c j) 0 g0 a
        - coriolisCsqSpec R q a j - coriolisCsqSpec R q a c) * qd j / 2)
  + coriolisCsqSpec R q a c * qd c

theorem nofriction_links_eq_ffLinks (R : Robot n) :
    (R.nofriction true true).links = ffLinks R := rfl

theorem pair_ite_sum (f g : Fin n → Fin n → ℚ) (c : Fin n) :
    (∑ i : Fin n, ∑ j ∈ Finset.Ioi i,
        ((if c = j then f i j else 0) + (if c = i then g i j else 0)))
      = (∑ i ∈ Finset.Iio c, f i c) + ∑ j ∈ Finset.Ioi c, g c j := by
  have hsplit : ∀ i : Fin n,
      (∑ j ∈ Finset.Ioi i,
        ((if c = j then f i j else 0) + (if c = i then g i j else 0)))
      = (∑ j ∈ Finset.Ioi i, if c = j then f i j else 0)
        + ∑ j ∈ Finset.Ioi i, if c = i then g i j else 0 :=
    fun i => Finset.sum_add_distrib
  rw [Finset.sum_congr rfl (fun i _ => hsplit i), Finset.sum_add_distrib]
  have h1 : (∑ i : Fin n, ∑ j ∈ Finset.Ioi i, if c = j then f i j else 0)
      = ∑ i ∈ Finset.Iio c, f i c := by
    have hin : ∀ i : Fin n,
        (∑ j ∈ Finset.Ioi i, if c = j then f i j else 0)
          = if i < c then f i c else 0 := by
      intro i
      rw [Finset.sum_ite_eq]
      simp [Finset.mem_Ioi]
    rw [Finset.sum_congr rfl (fun i _ => hin i)]
    have hf : Finset.Iio c = Finset.univ.filter (fun i => i < c) := by
      ext x
      simp
    rw [hf, Finset.sum_filter]
  have h2 : (∑ i : Fin n, ∑ j ∈ Finset.Ioi i, if c = i then g i j else 0)
      = ∑ j ∈ Finset.Ioi c, g c j := by
    have hin : ∀ i : Fin n,
        (∑ j ∈ Finset.Ioi i, if c = i then g i j else 0)
          = if c = i then ∑ j ∈ Finset.Ioi i, g i j else 0 := by
      intro i
      split
      · rfl
      · simp
    rw [Finset.sum_congr rfl (fun i _ => hin i), Finset.sum_ite_eq]
    simp
  rw [h1, h2]

/-- Claim C2: `coriolis(q, qd)` is computed on the friction-free variant of
the model (both Coulomb and viscous friction zeroed) and equals the matrix
built from single-joint centripetal probes, paired probes distributed with
weights `qd i / 2` and `qd j / 2`, plus `Csq @ diag(qd)`. -/
theorem coriolis_matches_spec (R : Robot n) (q qd : Vec n) :
    coriolis R q qd = coriolisSpec R q qd := by
  funext a c
  show coriolisPairs R q qd a c
      + (coriolisCsq R q * Matrix.diagonal qd) a c = _
  rw [Matrix.mul_diagonal]
  unfold coriolisPairs coriolisSpec
  rw [pair_ite_sum
    (fun i j => ((R.nofriction true true).rne q (pairQD i j) 0 g0 a
      - coriolisCsq R q a j - coriolisCsq R q a i) * qd i / 2)
    (fun i j => ((R.nofriction true true).rne q (pairQD i j) 0 g0 a
      - coriolisCsq R q a j - coriolisCsq R q a i) * qd j / 2) c]
  rfl

/-- An IEEE-754 double idealised: finite values are exact rationals, the
special values (infinities, NaN) are explicit.  Finite arithmetic is treated
as exact; only the special-value behaviour of division by zero, comparison
and `argmin` is modelled, because that is what decides `paycap`. -/
inductive RFloat where
  | fin (x : ℚ)
  | pinf
  | ninf
  | nan
deriving DecidableEq

/-- Float division of finite operands: `a / 0` is `±inf` by the sign of `a`,
and NaN when `a` is also zero. -/
def fdiv (a b : ℚ) : RFloat :=
  if b ≠ 0 then .fin (a / b)
  else if 0 < a then .pinf
  else if a < 0 then .ninf
  else .nan

/-- The clamp `WM[WM == np.NINF] = np.Inf` applied entrywise (NaN is not
equal to `-inf`, so it passes through). -/
def clampNinf (x : RFloat) : RFloat := if x = .ninf then .pinf else x

/-- IEEE `<` on the modelled values: any comparison with NaN is false. -/
def RFloat.ltb : RFloat → RFloat → Bool
  | .nan, _ => false
  | _, .nan => false
  | .ninf, .ninf => false
  | .ninf, _ => true
  | .fin _, .ninf => false
  | .fin x, .fin y => decide (x < y)
  | .fin _, .pinf => true
  | .pinf, _ => false

/-- `np.argmin` on floats: scan keeping the current strict minimum; an
element that is NaN immediately wins (NumPy propagates NaN, returning the
index of the first NaN when one is present, else the first minimum). -/
def npArgminAux : List RFloat → ℕ → ℕ → RFloat → ℕ
  | [], _, mi, _ => mi
  | x :: xs, i, mi, mp =>
    if x = .nan then i
    else if RFloat.ltb x mp then npArgminAux xs (i + 1) i x
    else npArgminAux xs (i + 1) mi mp

def npArgmin : List RFloat → ℕ
  | [] => 0
  | x :: xs => if x = .nan then 0 else npArgminAux xs 1 0 x

/-- `np.linalg.norm` restricted to the exactly-representable case: the
rational square root of num and den separately (exact whenever the argument
is the square of a rational; every concrete input below has norm 1). -/
def qsqrt (x : ℚ) : ℚ := (Nat.sqrt x.num.toNat : ℚ) / (Nat.sqrt x.den : ℚ)

/-- The normalised wrench `w / np.linalg.norm(w)` used by `paycap`. -/
def wHat (w : Fin 6 → ℚ) : Fin 6 → ℚ :=
  fun i => w i / qsqrt (∑ j, w j ^ 2)

/-- `gravload(q, grav)` (single configuration): an oracle call at zero
velocity and zero acceleration under the given gravity. -/
def gravload (R : Robot n) (q : Vec n) (grav : Fin 3 → ℚ) : Vec n :=
  R.rne q 0 0 grav

/-- `pay(W, q, frame)` (single configuration, Jacobian from `q`):
`tau = -J.T @ W` with `J = jacobe(q)` when `frame` is truthy, else
`jacob0(q)`. -/
def pay (R : Robot n) (W : Fin 6 → ℚ) (q : Vec n) (frame : ℕ) : Vec n :=
  fun a => -((if frame = 0 then R.jacob0 q else R.jacobe q).transpose.mulVec W) a

/-- The clamped per-joint vector `WM` of `paycap`: the upper-limit ratio on
the mask `tauP > 0`, the lower-limit ratio on `tauP <= 0`, with `-inf`
entries replaced by `+inf`. -/
def paycapWM (R : Robot n) (w : Fin 6 → ℚ) (tauR : Matrix (Fin n) (Fin 2) ℚ)
    (frame : ℕ) (q : Vec n) : Fin n → RFloat := fun c =>
  clampNinf
    (if 0 < pay R (wHat w) q frame c then
      fdiv (tauR c 0 - gravload R q R.gravity c) (pay R (wHat w) q frame c)
    else
      fdiv (tauR c 1 - gravload R q R.gravity c) (pay R (wHat w) q frame c))

/-- `paycap(w, tauR, frame, q)` (single configuration): gravity baseline,
unit-wrench torque via `pay`, per-joint ratios `WM`, clamp, then the
assignment `wmax[:, i] = WM` — well-formed only for `n = 6` (exact shape) or
`n = 1` (NumPy broadcast), otherwise a shape error (`none`) — and finally
`joint = argmin(WM)`. -/
def paycap (R : Robot n) (w : Fin 6 → ℚ) (tauR : Matrix (Fin n) (Fin 2) ℚ)
    (frame : ℕ) (q : Vec n) : Option ((Fin 6 → RFloat) × ℕ) :=
  if h6 : n = 6 then
    some (fun a => paycapWM R w tauR frame q (Fin.cast h6.symm a),
          npArgmin ((List.finRange n).map (paycapWM R w tauR frame q)))
  else if h1 : n = 1 then
    some (fun _ => paycapWM R w tauR frame q ⟨0, by omega⟩,
          npArgmin ((List.finRange n).map (paycapWM R w tauR frame q)))
  else none

theorem RFloat.ltb_irrefl (a : RFloat) : RFloat.ltb a a = false := by
  cases a <;> simp [RFloat.ltb]

theorem RFloat.ltb_trans {a b c : RFloat} (h1 : RFloat.ltb a b = true)
    (h2 : RFloat.ltb b c = true) : RFloat.ltb a c = true := by
  cases a <;> cases b <;> cases c <;> simp_all [RFloat.ltb] <;> linarith

theorem RFloat.ltb_asymm {a b : RFloat} (h : RFloat.ltb a b = true) :
    RFloat.ltb b a = false := by
  cases a <;> cases b <;> simp_all [RFloat.ltb] <;> linarith

theorem RFloat.ltb_resolve {a b : RFloat} (ha : a ≠ RFloat.nan)
    (hb : b ≠ RFloat.nan) (h : RFloat.ltb a b = false) :
    RFloat.ltb b a = true ∨ a = b := by
  cases a <;> cases b <;> simp_all [RFloat.ltb]
  rcases lt_or_eq_of_le h with h2 | h2
  · exact Or.inl h2
  · exact Or.inr h2.symm

theorem npArgminAux_spec (l : List RFloat) :
    ∀ (i mi : ℕ) (mp : RFloat), (∀ x ∈ l, x ≠ RFloat.nan) → mp ≠ RFloat.nan →
      (npArgminAux l i mi mp = mi ∧ ∀ x ∈ l, RFloat.ltb x mp = false)
      ∨ (∃ k, ∃ hk : k < l.length, npArgminAux l i mi mp = i + k ∧
          RFloat.ltb (l.get ⟨k, hk⟩) mp = true ∧
          ∀ x ∈ l, RFloat.ltb x (l.get ⟨k, hk⟩) = false) := by
  induction l with
  | nil =>
    intro i mi mp _ _
    left
    exact ⟨rfl, fun x hx => absurd hx (List.not_mem_nil x)⟩
  | cons x xs ih =>
    intro i mi mp hnn hmp
    have hx : x ≠ RFloat.nan := hnn x (List.mem_cons_self x xs)
    have hxs : ∀ y ∈ xs, y ≠ RFloat.nan :=
      fun y hy => hnn y (List.mem_cons_of_mem x hy)
    rw [npArgminAux, if_neg hx]
    by_cases hlt : RFloat.ltb x mp = true
    · rw [if_pos hlt]
      rcases ih (i + 1) i x hxs hx with ⟨heq, hall⟩ | ⟨k, hk, heq, hlt2, hall⟩
      · right
        refine ⟨0, by simp, by rw [heq]; omega, hlt, ?_⟩
        intro z hz
        rcases List.mem_cons.mp hz with h | h
        · rw [h]
          exact RFloat.ltb_irrefl x
        · exact hall z h
      · right
        refine ⟨k + 1, by simpa using hk, by rw [heq]; omega, ?_, ?_⟩
        · exact RFloat.ltb_trans hlt2 hlt
        · intro z hz
          rcases List.mem_cons.mp hz with h | h
          · rw [h]
            exact RFloat.ltb_asymm hlt2
          · exact hall z h
    · have hlt' : RFloat.ltb x mp = false := by
        revert hlt
        cases RFloat.ltb x mp <;> simp
      rw [if_neg hlt]
      rcases ih (i + 1) mi mp hxs hmp with ⟨heq, hall⟩ | ⟨k, hk, heq, hlt2, hall⟩
      · left
        refine ⟨heq, ?_⟩
        intro z hz
        rcases List.mem_cons.mp hz with h | h
        · rw [h]; exact hlt'
        · exact hall z h
      · right
        refine ⟨k + 1, by simpa using hk, by rw [heq]; omega, hlt2, ?_⟩
        intro z hz
        rcases List.mem_cons.mp hz with h | h
        · rw [h]
          have hy : xs.get ⟨k, hk⟩ ≠ RFloat.nan := hxs _ (xs.get_mem _ _)
          rcases RFloat.ltb_resolve hx hmp hlt' with h2 | h2
          · exact RFloat.ltb_asymm (RFloat.ltb_trans hlt2 h2)
          · rw [h2]
            exact RFloat.ltb_asymm hlt2
        · exact hall z h

theorem npArgmin_spec (l : List RFloat) (hne : l ≠ [])
    (hnn : ∀ x ∈ l, x ≠ RFloat.nan) :
    ∃ k, ∃ hk : k < l.length, npArgmin l = k ∧
      ∀ x ∈ l, RFloat.ltb x (l.get ⟨k, hk⟩) = false := by
  cases l with
  | nil => exact absurd rfl hne
  | cons x xs =>
    have hx : x ≠ RFloat.nan := hnn x (List.mem_cons_self x xs)
    have hxs : ∀ y ∈ xs, y ≠ RFloat.nan :=
      fun y hy => hnn y (List.mem_cons_of_mem x hy)
    rw [npArgmin, if_neg hx]
    rcases npArgminAux_spec xs 1 0 x hxs hx with ⟨heq, hall⟩ | ⟨k, hk, heq, hlt2, hall⟩
    · refine ⟨0, by simp, heq, ?_⟩
      intro z hz
      rcases List.mem_cons.mp hz with h | h
      · rw [h]
        exact RFloat.ltb_irrefl x
      · exact hall z h
    · refine ⟨k + 1, by simpa using hk, by rw [heq]; omega, ?_⟩
      intro z hz
      rcases List.mem_cons.mp hz with h | h
      · rw [h]
        exact RFloat.ltb_asymm hlt2
      · exact hall z h

theorem paycapWM_of_zero (R : Robot n) (w : Fin 6 → ℚ)
    (tauR : Matrix (Fin n) (Fin 2) ℚ) (frame : ℕ) (q : Vec n) (c : Fin n)
    (h0 : pay R (wHat w) q frame c = 0)
    (hnum : tauR c 1 - gravload R q R.gravity c ≠ 0) :
    paycapWM R w tauR frame q c = RFloat.pinf := by
  unfold paycapWM
  rw [h0, if_neg (lt_irrefl 0)]
  unfold fdiv
  rw [if_neg (by simp)]
  rcases lt_or_gt_of_ne hnum with h | h
  · rw [if_neg (not_lt.mpr h.le), if_pos h]
    simp [clampNinf]
  · rw [if_pos h]
    simp [clampNinf]

theorem paycapWM_of_nonzero (R : Robot n) (w : Fin 6 → ℚ)
    (tauR : Matrix (Fin n) (Fin 2) ℚ) (frame : ℕ) (q : Vec n) (c : Fin n)
    (h0 : pay R (wHat w) q frame c ≠ 0) :
    ∃ y : ℚ, paycapWM R w tauR frame q c = RFloat.fin y := by
  unfold paycapWM
  by_cases hpos : 0 < pay R (wHat w) q frame c
  · rw [if_pos hpos]
    unfold fdiv
    rw [if_pos h0]
    refine ⟨(tauR c 0 - gravload R q R.gravity c) / pay R (wHat w) q frame c, ?_⟩
    simp [clampNinf]
  · rw [if_neg hpos]
    unfold fdiv
    rw [if_pos h0]
    refine ⟨(tauR c 1 - gravload R q R.gravity c) / pay R (wHat w) q frame c, ?_⟩
    simp [clampNinf]

theorem get_map_finRange {α : Type} (f : Fin n → α) (k : ℕ)
    (hk : k < ((List.finRange n).map f).length) (hkn : k < n) :
    ((List.finRange n).map f).get ⟨k, hk⟩ = f ⟨k, hkn⟩ := by
  simp [List.get_eq_getElem]

theorem paycap_argmin_lemma (R : Robot n) (w : Fin 6 → ℚ)
    (tauR : Matrix (Fin n) (Fin 2) ℚ) (frame : ℕ) (q : Vec n)
    (hnan : ∀ c : Fin n, pay R (wHat w) q frame c = 0 →
      tauR c 1 - gravload R q R.gravity c ≠ 0)
    (hsome : ∃ c : Fin n, pay R (wHat w) q frame c ≠ 0) :
    ∃ hj : npArgmin ((List.finRange n).map (paycapWM R w tauR frame q)) < n,
      pay R (wHat w) q frame
        ⟨npArgmin ((List.finRange n).map (paycapWM R w tauR frame q)), hj⟩ ≠ 0 := by
  obtain ⟨c0, hc0⟩ := hsome
  have hlen : ((List.finRange n).map (paycapWM R w tauR frame q)).length = n := by
    simp
  have hne : (List.finRange n).map (paycapWM R w tauR frame q) ≠ [] := by
    intro hcon
    rw [hcon] at hlen
    have : 0 < n := c0.pos
    simp at hlen
    omega
  have hnn : ∀ x ∈ (List.finRange n).map (paycapWM R w tauR frame q),
      x ≠ RFloat.nan := by
    intro x hx
    obtain ⟨c, _, hc⟩ := List.mem_map.mp hx
    subst hc
    by_cases hz : pay R (wHat w) q frame c = 0
    · rw [paycapWM_of_zero R w tauR frame q c hz (hnan c hz)]
      simp
    · obtain ⟨y, hy⟩ := paycapWM_of_nonzero R w tauR frame q c hz
      rw [hy]
      simp
  obtain ⟨k, hk, heq, hall⟩ :=
    npArgmin_spec ((List.finRange n).map (paycapWM R w tauR frame q)) hne hnn
  have hkn : k < n := hlen ▸ hk
  rw [heq]
  refine ⟨hkn, ?_⟩
  intro hzero
  have hpk : paycapWM R w tauR frame q ⟨k, hkn⟩ = RFloat.pinf :=
    paycapWM_of_zero R w tauR frame q _ hzero (hnan _ hzero)
  obtain ⟨y, hy⟩ := paycapWM_of_nonzero R w tauR frame q c0 hc0
  have hmem : paycapWM R w tauR frame q c0
      ∈ (List.finRange n).map (paycapWM R w tauR frame q) :=
    List.mem_map_of_mem _ (List.mem_finRange c0)
  have hfalse := hall _ hmem
  rw [get_map_finRange _ k hk hkn, hpk, hy] at hfalse
  simp [RFloat.ltb] at hfalse

/-- Claim C3 (amended): `paycap` never returns as binding joint a joint whose
per-unit-wrench torque component is exactly zero, *provided* (a) no
zero-component joint has a zero ratio numerator (`tauR[c, 1] - tauB[c] = 0`
produces `0/0 = NaN`, which escapes the clamp and is propagated by argmin)
and (b) at least one joint has a nonzero component (otherwise every ratio is
non-finite and argmin must return one of the zero-component joints).  Under
(a), a zero unit-wrench torque component does yield infinite headroom: the
ratio is `±inf` and any `-inf` is clamped to `+inf` (second conjunct). -/
theorem paycap_binding_joint_nonzero (R : Robot n) (w : Fin 6 → ℚ)
    (tauR : Matrix (Fin n) (Fin 2) ℚ) (frame : ℕ) (q : Vec n)
    (wv : Fin 6 → RFloat) (j : ℕ)
    (hnan : ∀ c : Fin n, pay R (wHat w) q frame c = 0 →
      tauR c 1 - gravload R q R.gravity c ≠ 0)
    (hsome : ∃ c : Fin n, pay R (wHat w) q frame c ≠ 0)
    (hres : paycap R w tauR frame q = some (wv, j)) :
    (∃ hj : j < n, pay R (wHat w) q frame ⟨j, hj⟩ ≠ 0) ∧
    (∀ c : Fin n, pay R (wHat w) q frame c = 0 →
      paycapWM R w tauR frame q c = RFloat.pinf) := by
  constructor
  · unfold paycap at hres
    split at hres
    · have h2 := congrArg Prod.snd (Option.some.inj hres)
      have hj2 : j = npArgmin ((List.finRange n).map (paycapWM R w tauR frame q)) :=
        h2.symm
      subst hj2
      exact paycap_argmin_lemma R w tauR frame q hnan hsome
    · split at hres
      · have h2 := congrArg Prod.snd (Option.some.inj hres)
        have hj2 : j = npArgmin ((List.finRange n).map (paycapWM R w tauR frame q)) :=
          h2.symm
        subst hj2
        exact paycap_argmin_lemma R w tauR frame q hnan hsome
      · exact absurd hres (by simp)
  · intro c hc
    exact paycapWM_of_zero R w tauR frame q c hc (hnan c hc)

/-- The unit wrench `[1, 0, 0, 0, 0, 0]` (Euclidean norm exactly 1). -/
def w6u : Fin 6 → ℚ := fun i => if i = 0 then 1 else 0

/-- Concrete 6-joint robot for the C3 counterexample: zero oracle (so zero
gravity baseline), end-effector Jacobian whose only nonzero entry makes the
unit-wrench torque `1` on joint 1 and `0` on every other joint. -/
def R3c : Robot 6 :=
  ⟨"r", fun _ => 0, fun _ => 0, fun _ => L0,
   fun _ _ _ _ _ => 0,
   fun _ => Matrix.of fun r c => if r = 0 ∧ c = 1 then -1 else 0,
   fun _ => 0⟩

/-- Torque limits for the C3 counterexample: maxima `5`; minimum `0` on
joint 0 (zero numerator there) and `-1` elsewhere. -/
def tauR3c : Matrix (Fin 6) (Fin 2) ℚ :=
  Matrix.of fun c d => if d = 0 then 5 else if c = 0 then 0 else -1

theorem wHat_w6u : wHat w6u = w6u := by
  funext i
  unfold wHat qsqrt
  have h1 : (∑ j, w6u j ^ 2) = 1 := by
    simp [w6u, Fin.sum_univ_six]
  rw [h1]
  norm_num

theorem finRange_six : List.finRange 6 = [0, 1, 2, 3, 4, 5] := by decide

theorem pay3c_eval : ∀ c : Fin 6,
    pay R3c (wHat w6u) (fun _ => 0) 1 c = if c = 1 then 1 else 0 := by
  intro c
  rw [wHat_w6u]
  unfold pay
  rw [if_neg (by norm_num)]
  show -(∑ r, R3c.jacobe (fun _ => 0) r c * w6u r) = _
  simp only [R3c, w6u, Matrix.of_apply, Fin.sum_univ_six]
  by_cases hc : c = 1 <;> simp [hc]

theorem WM3c_eval : (List.finRange 6).map (paycapWM R3c w6u tauR3c 1 (fun _ => 0))
    = [RFloat.nan, RFloat.fin 5, RFloat.pinf, RFloat.pinf, RFloat.pinf, RFloat.pinf] := by
  have hg : ∀ x, gravload R3c (fun _ => 0) R3c.gravity x = 0 := fun x => rfl
  have hW : ∀ c : Fin 6, paycapWM R3c w6u tauR3c 1 (fun _ => 0) c
      = if c = 1 then RFloat.fin 5 else if c = 0 then RFloat.nan else RFloat.pinf := by
    intro c
    unfold paycapWM
    rw [pay3c_eval c, hg c]
    by_cases hc : c = 1
    · rw [if_pos hc, if_pos (by norm_num)]
      unfold fdiv
      rw [if_pos (by norm_num)]
      have ht : tauR3c c 0 = 5 := by simp [tauR3c]
      rw [ht]
      simp [clampNinf, hc]
    · rw [if_neg hc, if_neg (by norm_num)]
      unfold fdiv
      rw [if_neg (by norm_num)]
      by_cases hc0 : c = 0
      · have ht : tauR3c c 1 = 0 := by simp [tauR3c, hc0]
        rw [ht]
        rw [if_neg (by norm_num), if_neg (by norm_num)]
        simp [clampNinf, hc, hc0]
      · have ht : tauR3c c 1 = -1 := by simp [tauR3c, hc0]
        rw [ht]
        rw [if_neg (by norm_num), if_pos (by norm_num)]
        simp [clampNinf, hc, hc0]
  rw [finRange_six]
  simp only [List.map_cons, List.map_nil, hW]
  decide

/-- Claim C3 counterexample: at this concrete input `paycap` returns binding
joint `0`, whose per-unit-wrench torque component is exactly `0` — its ratio
is `0/0 = NaN`, which is not `-inf` (so the clamp leaves it untouched) and
argmin propagates the NaN even though joint 1 has a finite ratio `5`. -/
theorem paycap_zero_component_counterexample :
    (paycap R3c w6u tauR3c 1 (fun _ => 0)).map Prod.snd = some 0 ∧
    pay R3c (wHat w6u) (fun _ => 0) 1 0 = 0 := by
  constructor
  · have hpc : paycap R3c w6u tauR3c 1 (fun _ => 0)
        = some (paycapWM R3c w6u tauR3c 1 (fun _ => 0),
            npArgmin ((List.finRange 6).map (paycapWM R3c w6u tauR3c 1 (fun _ => 0)))) := rfl
    rw [hpc, WM3c_eval]
    rfl
  · rw [pay3c_eval 0]
    norm_num

/-- Concrete 6-joint robot with unit-wrench torque `1` on every joint and
per-joint upper limits `c + 2`, giving the distinct finite scale factors
`[2, 3, 4, 5, 6, 7]`. -/
def R3w : Robot 6 :=
  ⟨"r", fun _ => 0, fun _ => 0, fun _ => L0,
   fun _ _ _ _ _ => 0,
   fun _ => Matrix.of fun r _ => if r = 0 then -1 else 0,
   fun _ => 0⟩

def tauR3w : Matrix (Fin 6) (Fin 2) ℚ :=
  Matrix.of fun c d => if d = 0 then (c : ℚ) + 2 else -1

theorem pay3w_eval : ∀ c : Fin 6, pay R3w (wHat w6u) (fun _ => 0) 1 c = 1 := by
  intro c
  rw [wHat_w6u]
  unfold pay
  rw [if_neg (by norm_num)]
  show -(∑ r, R3w.jacobe (fun _ => 0) r c * w6u r) = _
  simp [R3w, w6u, Fin.sum_univ_six]

theorem paycap_binding_joint_nonzero_witness :
    (∃ hj : npArgmin ((List.finRange 6).map (paycapWM R3w w6u tauR3w 1 (fun _ => 0))) < 6,
      pay R3w (wHat w6u) (fun _ => 0) 1
        ⟨npArgmin ((List.finRange 6).map (paycapWM R3w w6u tauR3w 1 (fun _ => 0))), hj⟩ ≠ 0) ∧
    (∀ c : Fin 6, pay R3w (wHat w6u) (fun _ => 0) 1 c = 0 →
      paycapWM R3w w6u tauR3w 1 (fun _ => 0) c = RFloat.pinf) :=
  paycap_binding_joint_nonzero R3w w6u tauR3w 1 (fun _ => 0)
    (fun a => paycapWM R3w w6u tauR3w 1 (fun _ => 0) (Fin.cast (by omega) a))
    (npArgmin ((List.finRange 6).map (paycapWM R3w w6u tauR3w 1 (fun _ => 0))))
    (fun c hc => absurd (hc ▸ pay3w_eval c) (by norm_num))
    ⟨0, by rw [pay3w_eval 0]; norm_num⟩ rfl

/-- The finite part of an `RFloat` (used to extract the binding scalar). -/
def RFloat.toRat : RFloat → ℚ
  | .fin x => x
  | _ => 0

/-- Modelled from the claim's words (C4): the "maximal permissible wrench" as
a wrench — the binding scalar magnitude (the minimum scaling factor, i.e. the
factor at the argmin joint) applied to the unit wrench direction. -/
def claimWmaxVec (R : Robot 6) (w : Fin 6 → ℚ) (tauR : Matrix (Fin 6) (Fin 2) ℚ)
    (frame : ℕ) (q : Vec 6) : Fin 6 → RFloat :=
  fun a => RFloat.fin
    ((paycapWM R w tauR frame q
        ⟨npArgmin ((List.finRange 6).map (paycapWM R w tauR frame q)) % 6,
         Nat.mod_lt _ (by omega)⟩).toRat * wHat w a)

/-- Claim C4 (amended): for a 6-joint robot (the only joint count, besides
the broadcast case `n = 1`, for which the assignment `wmax[:, i] = WM` is
shape-correct), the first result of `paycap` is the clamped per-joint
scale-factor vector `WM` itself — not a wrench assembled from the binding
scalar — and the second result is the argmin index of that vector; when no
entry is NaN, the entry at the returned index is minimal, and that entry is
the scalar wrench magnitude at which the first joint reaches its limit. -/
theorem paycap_first_result_factor_vector (R : Robot 6) (w : Fin 6 → ℚ)
    (tauR : Matrix (Fin 6) (Fin 2) ℚ) (frame : ℕ) (q : Vec 6)
    (hnn : ∀ c : Fin 6, paycapWM R w tauR frame q c ≠ RFloat.nan) :
    ∃ j : ℕ, ∃ hj : j < 6,
      paycap R w tauR frame q = some (paycapWM R w tauR frame q, j) ∧
      ∀ c : Fin 6, RFloat.ltb (paycapWM R w tauR frame q c)
        (paycapWM R w tauR frame q ⟨j, hj⟩) = false := by
  have hnn' : ∀ x ∈ (List.finRange 6).map (paycapWM R w tauR frame q),
      x ≠ RFloat.nan := by
    intro x hx
    obtain ⟨c, _, hc⟩ := List.mem_map.mp hx
    subst hc
    exact hnn c
  have hne : (List.finRange 6).map (paycapWM R w tauR frame q) ≠ [] := by
    intro h
    have h2 := congrArg List.length h
    simp at h2
  obtain ⟨k, hk, heq, hall⟩ := npArgmin_spec _ hne hnn'
  have hk6 : k < 6 := by simpa using hk
  refine ⟨k, hk6, ?_, ?_⟩
  · have hpc : paycap R w tauR frame q
        = some (paycapWM R w tauR frame q,
            npArgmin ((List.finRange 6).map (paycapWM R w tauR frame q))) := rfl
    rw [hpc, heq]
  · intro c
    have hmem := List.mem_map_of_mem (paycapWM R w tauR frame q) (List.mem_finRange c)
    have h2 := hall _ hmem
    rwa [get_map_finRange _ k hk hk6] at h2

theorem WM3w_eval : ∀ c : Fin 6,
    paycapWM R3w w6u tauR3w 1 (fun _ => 0) c = RFloat.fin ((c : ℚ) + 2) := by
  intro c
  have hg : ∀ x, gravload R3w (fun _ => 0) R3w.gravity x = 0 := fun x => rfl
  unfold paycapWM
  rw [pay3w_eval c, hg c]
  rw [if_pos (by norm_num)]
  unfold fdiv
  rw [if_pos (by norm_num)]
  have ht : tauR3w c 0 = (c : ℚ) + 2 := by simp [tauR3w]
  rw [ht]
  simp [clampNinf]

theorem paycap_first_result_factor_vector_witness :
    ∃ j : ℕ, ∃ hj : j < 6,
      paycap R3w w6u tauR3w 1 (fun _ => 0)
        = some (paycapWM R3w w6u tauR3w 1 (fun _ => 0), j) ∧
      ∀ c : Fin 6, RFloat.ltb (paycapWM R3w w6u tauR3w 1 (fun _ => 0) c)
        (paycapWM R3w w6u tauR3w 1 (fun _ => 0) ⟨j, hj⟩) = false :=
  paycap_first_result_factor_vector R3w w6u tauR3w 1 (fun _ => 0)
    (fun c => by rw [WM3w_eval c]; simp)

theorem WM3w_list_eval :
    (List.finRange 6).map (paycapWM R3w w6u tauR3w 1 (fun _ => 0))
      = [RFloat.fin 2, RFloat.fin 3, RFloat.fin 4,
         RFloat.fin 5, RFloat.fin 6, RFloat.fin 7] := by
  rw [finRange_six]
  simp only [List.map_cons, List.map_nil, WM3w_eval]
  norm_num [show ((3 : Fin 6) : ℕ) = 3 from rfl, show ((4 : Fin 6) : ℕ) = 4 from rfl,
    show ((5 : Fin 6) : ℕ) = 5 from rfl]

/-- Claim C4 counterexample: at this concrete input the per-joint factors are
`[2, 3, 4, 5, 6, 7]` (binding joint 0, binding scalar 2) and the unit wrench
is `e_0`, so component 1 of the claimed "maximal permissible wrench" is
`2 * 0 = 0` (and under the constant-scalar reading it would be `2`), yet the
first result's component 1 is the second joint's scale factor `3`. -/
theorem paycap_wmax_counterexample :
    (paycap R3w w6u tauR3w 1 (fun _ => 0)).map (fun p => p.1 1) = some (RFloat.fin 3) ∧
    claimWmaxVec R3w w6u tauR3w 1 (fun _ => 0) 1 = RFloat.fin 0 ∧
    (RFloat.fin 3 ≠ RFloat.fin 0 ∧ RFloat.fin 3 ≠ RFloat.fin 2) := by
  have hargmin : npArgmin ((List.finRange 6).map (paycapWM R3w w6u tauR3w 1 (fun _ => 0))) = 0 := by
    rw [WM3w_list_eval]
    decide
  refine ⟨?_, ?_, by decide⟩
  · have hpc : paycap R3w w6u tauR3w 1 (fun _ => 0)
        = some (paycapWM R3w w6u tauR3w 1 (fun _ => 0),
            npArgmin ((List.finRange 6).map (paycapWM R3w w6u tauR3w 1 (fun _ => 0)))) := rfl
    rw [hpc]
    show some (paycapWM R3w w6u tauR3w 1 (fun _ => 0) 1) = some (RFloat.fin 3)
    rw [WM3w_eval 1]
    norm_num
  · unfold claimWmaxVec
    have hidx : (⟨npArgmin ((List.finRange 6).map (paycapWM R3w w6u tauR3w 1 (fun _ => 0))) % 6,
        Nat.mod_lt _ (by omega)⟩ : Fin 6) = 0 := by
      apply Fin.ext
      show npArgmin ((List.finRange 6).map (paycapWM R3w w6u tauR3w 1 (fun _ => 0))) % 6 = 0
      rw [hargmin]
    rw [hidx, WM3w_eval 0, wHat_w6u]
    norm_num [RFloat.toRat, w6u]

/-! ## Forward dynamics (`fdyn` / `_fdyn`)

The SciPy adaptive-step integrator is an external collaborator.  A run of it
is modelled as a list of `StepPlan`s: one entry per call of
`integrator.step()`, carrying the `(t, y)` points at which the step evaluates
the supplied derivative `_fdyn` (an exception raised there propagates out of
`step()`), and the step's outcome — `some (t, y)` for a successful step
(`integrator.t`, `integrator.y`), `none` for `status == 'failed'`.  The
driving `while` loop consumes the plans in order. -/

/-- The torque control law: returns a Python sequence of complex scalars,
modelled as `(re, im)` pairs, of arbitrary length (the contract demands
length `n` and all imaginary parts zero). -/
abbrev TorqLaw (n : ℕ) := ℚ → Vec n → Vec n → List (ℚ × ℚ)

/-- The control-law contract of `_fdyn`: `len(tau) == n` and
`all(np.isreal(tau))`. -/
abbrev validOut (n : ℕ) (out : List (ℚ × ℚ)) : Prop :=
  out.length = n ∧ ∀ z ∈ out, z.2 = 0

def contractMsg : String := "torque function must return vector with N real elements"

def failMsg : String := "integration completed with failed status "

/-- `_fdyn(t, x, torqfun, targs)`: split the state into `(q, qd)`, evaluate
the torque law (zero torque when none is given), validate it, and return
`[qd, accel(q, qd, tau)]`. -/
def fdynD (R : Robot n) (tf : Option (TorqLaw n)) (t : ℚ) (x : Vec n × Vec n) :
    Except String (Vec n × Vec n) :=
  match tf with
  | none => .ok (x.2, accelV R x.1 x.2 0)
  | some f =>
    if h : validOut n (f t x.1 x.2) then
      .ok (x.2, accelV R x.1 x.2 (fun i => ((f t x.1 x.2).get (Fin.cast h.1.symm i)).1))
    else .error contractMsg

/-- One `integrator.step()` of the external adaptive integrator: the
derivative-evaluation points, and the resulting `(t, y)` (or `none` when the
integrator reports `'failed'`). -/
structure StepPlan (n : ℕ) where
  evals : List (ℚ × (Vec n × Vec n))
  outcome : Option (ℚ × (Vec n × Vec n))

/-- The derivative evaluations performed inside one `integrator.step()`:
an exception raised by `_fdyn` propagates. -/
def runEvals (R : Robot n) (tf : Option (TorqLaw n)) :
    List (ℚ × (Vec n × Vec n)) → Except String Unit
  | [] => .ok ()
  | e :: es =>
    match fdynD R tf e.1 e.2 with
    | .error msg => .error msg
    | .ok _ => runEvals R tf es

/-- The `while integrator.status == 'running'` loop of `fdyn`: step, raise on
failed status, else append `(integrator.t, integrator.y)`. -/
def fdynLoop (R : Robot n) (tf : Option (TorqLaw n)) :
    List (StepPlan n) → List (ℚ × (Vec n × Vec n)) →
    Except String (List (ℚ × (Vec n × Vec n)))
  | [], acc => .ok acc
  | p :: ps, acc =>
    match runEvals R tf p.evals with
    | .error msg => .error msg
    | .ok _ =>
      match p.outcome with
      | none => .error failMsg
      | some s => fdynLoop R tf ps (acc ++ [s])

/-- `np.arange(0, T, dt)`: the multiples of `dt` strictly below `T`. -/
def arangeQ (T dt : ℚ) : List ℚ :=
  (List.range (Int.toNat ⌈T / dt⌉)).map (fun k : ℕ => (k : ℚ) * dt)

/-- `scipy.interpolate.interp1d(t, x)` evaluated at one point: piecewise
linear on the (sorted) sample times, out-of-range queries are an error
(`bounds_error`, modelled by `none`). -/
def interp1 {β : Type} [AddCommGroup β] [Module ℚ β] :
    List (ℚ × β) → ℚ → Option β
  | [], _ => none
  | [(t0, x0)], t => if t = t0 then some x0 else none
  | (t0, x0) :: (t1, x1) :: rest, t =>
    if t < t0 then none
    else if t ≤ t1 then some (x0 + ((t - t0) / (t1 - t0)) • (x1 - x0))
    else interp1 ((t1, x1) :: rest) t

/-- The vectorised interpolation call `interp(tnew)`: every query point must
be in range. -/
def interpAll {β : Type} [AddCommGroup β] [Module ℚ β]
    (samples : List (ℚ × β)) : List ℚ → Option (List β)
  | [] => some []
  | t :: ts =>
    match interp1 samples t, interpAll samples ts with
    | some v, some vs => some (v :: vs)
    | _, _ => none

/-- The trajectory namedtuple `fdyn(t, q, qd)`. -/
structure FdynResult (n : ℕ) where
  t : List ℚ
  q : List (Vec n)
  qd : List (Vec n)

/-- `fdyn(T, q0, torqfun, qd0, dt)` over a modelled integrator run `plans`:
seed the buffers with `(0, [q0; qd0])` (`qd0` defaults to zero), drive the
loop, then either return the raw samples or resample them on the uniform grid
`np.arange(0, T, dt)` by interpolation. -/
def fdyn (R : Robot n) (T : ℚ) (q0 : Vec n) (tf : Option (TorqLaw n))
    (qd0o : Option (Vec n)) (dt : Option ℚ) (plans : List (StepPlan n)) :
    Except String (FdynResult n) :=
  match fdynLoop R tf plans [(0, (q0, qd0o.getD 0))] with
  | .error msg => .error msg
  | .ok samples =>
    match dt with
    | none =>
      .ok ⟨samples.map Prod.fst, samples.map (fun s => s.2.1),
           samples.map (fun s => s.2.2)⟩
    | some d =>
      match interpAll samples (arangeQ T d) with
      | none => .error "interpolation out of range"
      | some xs => .ok ⟨arangeQ T d, xs.map Prod.fst, xs.map Prod.snd⟩

theorem runEvals_ok (R : Robot n) (tf : Option (TorqLaw n)) :
    ∀ evals : List (ℚ × (Vec n × Vec n)),
      (∀ e ∈ evals, ∃ y, fdynD R tf e.1 e.2 = .ok y) →
      runEvals R tf evals = .ok () := by
  intro evals
  induction evals with
  | nil => intro _; rfl
  | cons e es ih =>
    intro h
    obtain ⟨y, hy⟩ := h e (List.mem_cons_self e es)
    rw [runEvals, hy]
    exact ih (fun e' he' => h e' (List.mem_cons_of_mem e he'))

theorem runEvals_contract (R : Robot n) (f : TorqLaw n) :
    ∀ evals : List (ℚ × (Vec n × Vec n)),
      (∃ e ∈ evals, ¬ validOut n (f e.1 e.2.1 e.2.2)) →
      runEvals R (some f) evals = .error contractMsg := by
  intro evals
  induction evals with
  | nil => rintro ⟨e, he, _⟩; exact absurd he (List.not_mem_nil e)
  | cons e es ih =>
    rintro ⟨e', he', hbad⟩
    by_cases hv : validOut n (f e.1 e.2.1 e.2.2)
    · have hd : fdynD R (some f) e.1 e.2
          = .ok (e.2.2, accelV R e.2.1 e.2.2
              (fun i => ((f e.1 e.2.1 e.2.2).get (Fin.cast hv.1.symm i)).1)) :=
        dif_pos hv
      rw [runEvals, hd]
      rcases List.mem_cons.mp he' with h | h
      · exact absurd (h ▸ hv) hbad
      · exact ih ⟨e', h, hbad⟩
    · have hd : fdynD R (some f) e.1 e.2 = .error contractMsg := dif_neg hv
      rw [runEvals, hd]

theorem fdynLoop_contract (R : Robot n) (f : TorqLaw n) :
    ∀ (plans : List (StepPlan n)) (acc : List (ℚ × (Vec n × Vec n))) (i : ℕ)
      (hi : i < plans.length),
      (∀ j (hj : j < i), ((plans.get ⟨j, lt_trans hj hi⟩).outcome).isSome) →
      (∃ e ∈ (plans.get ⟨i, hi⟩).evals, ¬ validOut n (f e.1 e.2.1 e.2.2)) →
      fdynLoop R (some f) plans acc = .error contractMsg := by
  intro plans
  induction plans with
  | nil => intro _ i hi; exact absurd hi (by simp)
  | cons p ps ih =>
    intro acc i hi hprev hbad
    match i with
    | 0 =>
      rw [fdynLoop, runEvals_contract R f p.evals hbad]
    | i' + 1 =>
      by_cases hv : ∀ e ∈ p.evals, validOut n (f e.1 e.2.1 e.2.2)
      · have hev : runEvals R (some f) p.evals = .ok () := by
          apply runEvals_ok
          intro e he
          exact ⟨_, dif_pos (hv e he)⟩
        rw [fdynLoop, hev]
        have hp0 : p.outcome.isSome := hprev 0 (Nat.succ_pos i')
        obtain ⟨s, hs⟩ := Option.isSome_iff_exists.mp hp0
        rw [hs]
        exact ih (acc ++ [s]) i' (Nat.lt_of_succ_lt_succ hi)
          (fun j hj => hprev (j + 1) (Nat.succ_lt_succ hj)) hbad
      · push_neg at hv
        obtain ⟨e, he, hbad'⟩ := hv
        rw [fdynLoop, runEvals_contract R f p.evals ⟨e, he, hbad'⟩]

/-- Claim C7: if at any integration step (all earlier steps having succeeded)
the user torque law returns a vector of the wrong length or with a non-real
element, `fdyn` aborts with the contract-violation error and returns no
trajectory at all; and when no torque law is supplied, the per-step torque is
the zero vector of length `n`. -/
theorem fdyn_contract_violation_aborts (R : Robot n) (f : TorqLaw n) (T : ℚ)
    (q0 : Vec n) (qd0o : Option (Vec n)) (dt : Option ℚ)
    (plans : List (StepPlan n)) (i : ℕ) (hi : i < plans.length)
    (hprev : ∀ j (hj : j < i), ((plans.get ⟨j, lt_trans hj hi⟩).outcome).isSome)
    (hbad : ∃ e ∈ (plans.get ⟨i, hi⟩).evals, ¬ validOut n (f e.1 e.2.1 e.2.2)) :
    fdyn R T q0 (some f) qd0o dt plans = .error contractMsg ∧
    (∀ (t : ℚ) (x : Vec n × Vec n),
      fdynD R none t x = .ok (x.2, accelV R x.1 x.2 0)) := by
  constructor
  · unfold fdyn
    rw [fdynLoop_contract R f plans _ i hi hprev hbad]
  · intro t x
    rfl

theorem fdyn_contract_violation_aborts_witness :
    (fdyn R1 5 (fun _ => 0) (some (fun _ _ _ => [])) none none
        [⟨[(0, (0, 0))], some (1, (0, 0))⟩] = .error contractMsg) ∧
    (∀ (t : ℚ) (x : Vec 1 × Vec 1),
      fdynD R1 none t x = .ok (x.2, accelV R1 x.1 x.2 0)) :=
  fdyn_contract_violation_aborts R1 (fun _ _ _ => []) 5 (fun _ => 0) none none
    [⟨[(0, (0, 0))], some (1, (0, 0))⟩] 0 (by simp)
    (fun j hj => absurd hj (Nat.not_lt_zero j))
    ⟨(0, (0, 0)), by simp, by simp [validOut]⟩

theorem fdynLoop_failure (R : Robot n) (tf : Option (TorqLaw n)) :
    ∀ (plans : List (StepPlan n)) (acc : List (ℚ × (Vec n × Vec n))) (i : ℕ)
      (hi : i < plans.length),
      (∀ j (hj : j < i), ((plans.get ⟨j, lt_trans hj hi⟩).outcome).isSome) →
      (∀ j (hj : j ≤ i), runEvals R tf (plans.get ⟨j, lt_of_le_of_lt hj hi⟩).evals = .ok ()) →
      (plans.get ⟨i, hi⟩).outcome = none →
      fdynLoop R tf plans acc = .error failMsg := by
  intro plans
  induction plans with
  | nil => intro _ i hi; exact absurd hi (by simp)
  | cons p ps ih =>
    intro acc i hi hprev hev hfail
    match i with
    | 0 =>
      have hev0 : runEvals R tf p.evals = .ok () := hev 0 (le_refl 0)
      have hfail0 : p.outcome = none := hfail
      rw [fdynLoop, hev0, hfail0]
    | i' + 1 =>
      have hev0 : runEvals R tf p.evals = .ok () := hev 0 (Nat.zero_le _)
      rw [fdynLoop, hev0]
      have hp0 : p.outcome.isSome := hprev 0 (Nat.succ_pos i')
      obtain ⟨s, hs⟩ := Option.isSome_iff_exists.mp hp0
      rw [hs]
      exact ih (acc ++ [s]) i' (Nat.lt_of_succ_lt_succ hi)
        (fun j hj => hprev (j + 1) (Nat.succ_lt_succ hj))
        (fun j hj => hev (j + 1) (Nat.succ_le_succ hj)) hfail

/-- Claim C8: if the integrator reports failed status after a step (all
earlier steps having succeeded and every derivative evaluation so far being
contract-clean), `fdyn` aborts with the run-failure error — a message
distinct from the control-law contract violation — and the accumulated
trajectory is not returned. -/
theorem fdyn_integrator_failure_aborts (R : Robot n) (tf : Option (TorqLaw n))
    (T : ℚ) (q0 : Vec n) (qd0o : Option (Vec n)) (dt : Option ℚ)
    (plans : List (StepPlan n)) (i : ℕ) (hi : i < plans.length)
    (hprev : ∀ j (hj : j < i), ((plans.get ⟨j, lt_trans hj hi⟩).outcome).isSome)
    (hev : ∀ j (hj : j ≤ i),
      runEvals R tf (plans.get ⟨j, lt_of_le_of_lt hj hi⟩).evals = .ok ())
    (hfail : (plans.get ⟨i, hi⟩).outcome = none) :
    fdyn R T q0 tf qd0o dt plans = .error failMsg ∧ failMsg ≠ contractMsg := by
  constructor
  · unfold fdyn
    rw [fdynLoop_failure R tf plans _ i hi hprev hev hfail]
  · decide

theorem fdyn_integrator_failure_aborts_witness :
    (fdyn R1 5 (fun _ => 0) none none none [⟨[], none⟩] = .error failMsg) ∧
    failMsg ≠ contractMsg :=
  fdyn_integrator_failure_aborts R1 none 5 (fun _ => 0) none none
    [⟨[], none⟩] 0 (by simp) (fun j hj => absurd hj (Nat.not_lt_zero j))
    (fun j hj => by
      interval_cases j
      rfl) rfl

theorem fdynLoop_ok (R : Robot n) (tf : Option (TorqLaw n)) :
    ∀ (plans : List (StepPlan n)) (outs : List (ℚ × (Vec n × Vec n))),
      plans.map StepPlan.outcome = outs.map some →
      (∀ p ∈ plans, runEvals R tf p.evals = .ok ()) →
      ∀ acc, fdynLoop R tf plans acc = .ok (acc ++ outs) := by
  intro plans
  induction plans with
  | nil =>
    intro outs houts _ acc
    have houts' : outs = [] := by
      cases outs with
      | nil => rfl
      | cons o os => simp at houts
    subst houts'
    simp [fdynLoop]
  | cons p ps ih =>
    intro outs houts hev acc
    cases outs with
    | nil => simp at houts
    | cons o os =>
      simp only [List.map_cons, List.cons.injEq] at houts
      obtain ⟨ho, hos⟩ := houts
      rw [fdynLoop, hev p (List.mem_cons_self p ps), ho]
      show fdynLoop R tf ps (acc ++ [o]) = _
      rw [ih os hos (fun p' hp' => hev p' (List.mem_cons_of_mem p hp')) (acc ++ [o])]
      simp

theorem fdynLoop_ok_inv (R : Robot n) (tf : Option (TorqLaw n)) :
    ∀ (plans : List (StepPlan n)) (acc res : List (ℚ × (Vec n × Vec n))),
      fdynLoop R tf plans acc = .ok res →
      ∃ tail, res = acc ++ tail ∧ ∀ s ∈ tail, ∃ p ∈ plans, p.outcome = some s := by
  intro plans
  induction plans with
  | nil =>
    intro acc res h
    rw [fdynLoop] at h
    refine ⟨[], ?_, fun s hs => absurd hs (List.not_mem_nil s)⟩
    simpa using (Except.ok.inj h).symm
  | cons p ps ih =>
    intro acc res h
    rw [fdynLoop] at h
    cases hre : runEvals R tf p.evals with
    | error msg => rw [hre] at h; simp at h
    | ok u =>
      rw [hre] at h
      cases ho : p.outcome with
      | none => rw [ho] at h; simp at h
      | some s =>
        rw [ho] at h
        obtain ⟨tail, htail, hmem⟩ := ih (acc ++ [s]) res h
        refine ⟨s :: tail, by simp [htail], ?_⟩
        intro s' hs'
        rcases List.mem_cons.mp hs' with h' | h'
        · exact ⟨p, List.mem_cons_self p ps, h' ▸ ho⟩
        · obtain ⟨p', hp', hp'o⟩ := hmem s' h'
          exact ⟨p', List.mem_cons_of_mem p hp', hp'o⟩

theorem interp1_at_head {β : Type} [AddCommGroup β] [Module ℚ β] (x0 : β)
    (rest : List (ℚ × β)) (hnn : ∀ s ∈ rest, (0 : ℚ) ≤ s.1) :
    interp1 (((0 : ℚ), x0) :: rest) 0 = some x0 := by
  cases rest with
  | nil => simp [interp1]
  | cons s rest' =>
    obtain ⟨t1, x1⟩ := s
    have h1 : (0 : ℚ) ≤ t1 := hnn (t1, x1) (List.mem_cons_self _ _)
    rw [interp1, if_neg (lt_irrefl 0), if_pos h1]
    simp

theorem interp1_isSome {β : Type} [AddCommGroup β] [Module ℚ β] :
    ∀ (l : List (ℚ × β)) (t : ℚ) (hne : l ≠ []),
      List.Chain' (fun a b : ℚ × β => a.1 < b.1) l →
      (l.head hne).1 ≤ t → t ≤ (l.getLast hne).1 → (interp1 l t).isSome := by
  intro l
  induction l with
  | nil => intro t hne; exact absurd rfl hne
  | cons s l' ih =>
    intro t hne hch hlo hhi
    obtain ⟨t0, x0⟩ := s
    cases l' with
    | nil =>
      have ht : t = t0 := le_antisymm (by simpa using hhi) (by simpa using hlo)
      rw [interp1, if_pos ht]
      rfl
    | cons s1 l'' =>
      obtain ⟨t1, x1⟩ := s1
      rw [interp1, if_neg (not_lt.mpr (by simpa using hlo))]
      by_cases h2 : t ≤ t1
      · rw [if_pos h2]
        rfl
      · rw [if_neg h2]
        push_neg at h2
        refine ih t (by simp) hch.tail (by simpa using h2.le) ?_
        rw [← List.getLast_cons (l := (t1, x1) :: l'') (by simp)]
        exact hhi

theorem interpAll_eval {β : Type} [AddCommGroup β] [Module ℚ β]
    (samples : List (ℚ × β)) :
    ∀ ts : List ℚ, (∀ t ∈ ts, (interp1 samples t).isSome) →
      ∃ xs, interpAll samples ts = some xs ∧ xs.length = ts.length ∧
        ∀ (k : ℕ) (hk : k < ts.length) (hk2 : k < xs.length),
          interp1 samples (ts.get ⟨k, hk⟩) = some (xs.get ⟨k, hk2⟩) := by
  intro ts
  induction ts with
  | nil =>
    intro _
    exact ⟨[], rfl, rfl, fun k hk => absurd hk (Nat.not_lt_zero k)⟩
  | cons t ts' ih =>
    intro h
    obtain ⟨v, hv⟩ := Option.isSome_iff_exists.mp (h t (List.mem_cons_self t ts'))
    obtain ⟨xs', hxs', hlen, hidx⟩ := ih (fun t' ht' => h t' (List.mem_cons_of_mem t ht'))
    refine ⟨v :: xs', ?_, by simp [hlen], ?_⟩
    · rw [interpAll, hv, hxs']
    · intro k hk hk2
      match k with
      | 0 => simpa using hv
      | k' + 1 =>
        simpa using hidx k' (Nat.lt_of_succ_lt_succ hk) (Nat.lt_of_succ_lt_succ hk2)

theorem arangeQ_mem (T d : ℚ) (hd : 0 < d) (s : ℚ) :
    s ∈ arangeQ T d ↔ ∃ k : ℕ, s = (k : ℚ) * d ∧ s < T := by
  constructor
  · intro hs
    unfold arangeQ at hs
    obtain ⟨k, hk, hks⟩ := List.mem_map.mp hs
    rw [List.mem_range] at hk
    refine ⟨k, hks.symm, ?_⟩
    rw [← hks]
    have h1 : (k : ℤ) < ⌈T / d⌉ := Int.lt_toNat.mp hk
    have h2 : (k : ℚ) < T / d := by exact_mod_cast Int.lt_ceil.mp h1
    exact (lt_div_iff₀ hd).mp h2
  · rintro ⟨k, rfl, hlt⟩
    unfold arangeQ
    apply List.mem_map.mpr
    refine ⟨k, ?_, rfl⟩
    rw [List.mem_range]
    have h2 : (k : ℚ) < T / d := (lt_div_iff₀ hd).mpr hlt
    exact Int.lt_toNat.mpr (Int.lt_ceil.mpr (by exact_mod_cast h2))

theorem arangeQ_head (T d : ℚ) (hd : 0 < d) (hT : 0 < T) :
    (arangeQ T d).head? = some 0 := by
  unfold arangeQ
  have h0 : (0 : ℤ) < ⌈T / d⌉ := by
    apply Int.lt_ceil.mpr
    push_cast
    positivity
  obtain ⟨m, hm⟩ : ∃ m, Int.toNat ⌈T / d⌉ = m + 1 :=
    ⟨Int.toNat ⌈T / d⌉ - 1, by omega⟩
  rw [hm, List.range_succ_eq_map]
  simp

/-- Claim C6: with a fixed output interval `dt`, the returned time vector is
exactly the uniform grid `0, dt, 2dt, …` restricted to times strictly less
than `T` (the final partial interval is dropped); the `q`/`qd` rows are
obtained by interpolating the integrator's irregular samples at those grid
times; and — the integrator's last sample time being `T` (hypothesis
`hlast`, SciPy's guarantee on status `'finished'`) — every grid point lies
inside the sampled range, so no sample is ever extrapolated beyond the last
integrator time. -/
theorem fdyn_fixed_dt_resample (R : Robot n) (tf : Option (TorqLaw n))
    (T d : ℚ) (q0 : Vec n) (qd0o : Option (Vec n)) (plans : List (StepPlan n))
    (outs : List (ℚ × (Vec n × Vec n)))
    (houts : plans.map StepPlan.outcome = outs.map some)
    (hev : ∀ p ∈ plans, runEvals R tf p.evals = .ok ())
    (hch : List.Chain' (fun a b : ℚ × (Vec n × Vec n) => a.1 < b.1)
      (((0 : ℚ), (q0, qd0o.getD 0)) :: outs))
    (hlast : ((((0 : ℚ), (q0, qd0o.getD 0)) :: outs).getLast (List.cons_ne_nil _ _)).1 = T)
    (hd : 0 < d) :
    ∃ r : FdynResult n,
      fdyn R T q0 tf qd0o (some d) plans = .ok r ∧
      r.t = arangeQ T d ∧
      (∀ s : ℚ, s ∈ r.t ↔ ∃ k : ℕ, s = (k : ℚ) * d ∧ s < T) ∧
      (∀ s ∈ r.t, 0 ≤ s ∧ s < T ∧
        s ≤ ((((0 : ℚ), (q0, qd0o.getD 0)) :: outs).getLast (List.cons_ne_nil _ _)).1) ∧
      r.q.length = r.t.length ∧ r.qd.length = r.t.length ∧
      (∀ (k : ℕ) (hk : k < r.t.length) (hk2 : k < r.q.length) (hk3 : k < r.qd.length),
        interp1 (((0 : ℚ), (q0, qd0o.getD 0)) :: outs) (r.t.get ⟨k, hk⟩)
          = some (r.q.get ⟨k, hk2⟩, r.qd.get ⟨k, hk3⟩)) := by
  have hbound : ∀ s ∈ arangeQ T d, 0 ≤ s ∧ s < T := by
    intro s hs
    obtain ⟨k, rfl, hlt⟩ := (arangeQ_mem T d hd s).mp hs
    exact ⟨mul_nonneg (Nat.cast_nonneg k) hd.le, hlt⟩
  have hin : ∀ t ∈ arangeQ T d,
      (interp1 (((0 : ℚ), (q0, qd0o.getD 0)) :: outs) t).isSome := by
    intro t ht
    obtain ⟨h0, hT⟩ := hbound t ht
    refine interp1_isSome _ t (List.cons_ne_nil _ _) hch (by simpa using h0) ?_
    rw [hlast]
    exact hT.le
  obtain ⟨xs, hxs, hlen, hidx⟩ := interpAll_eval _ (arangeQ T d) hin
  have hloop : fdynLoop R tf plans [((0 : ℚ), (q0, qd0o.getD 0))]
      = .ok ([((0 : ℚ), (q0, qd0o.getD 0))] ++ outs) :=
    fdynLoop_ok R tf plans outs houts hev _
  have hfd : fdyn R T q0 tf qd0o (some d) plans
      = match interpAll (((0 : ℚ), (q0, qd0o.getD 0)) :: outs) (arangeQ T d) with
        | none => .error "interpolation out of range"
        | some xs => .ok ⟨arangeQ T d, xs.map Prod.fst, xs.map Prod.snd⟩ := by
    unfold fdyn
    rw [hloop]
    rfl
  refine ⟨⟨arangeQ T d, xs.map Prod.fst, xs.map Prod.snd⟩, ?_, rfl,
    arangeQ_mem T d hd, ?_, by simp [hlen], by simp [hlen], ?_⟩
  · rw [hfd, hxs]
  · intro s hs
    obtain ⟨h0, hT⟩ := hbound s hs
    refine ⟨h0, hT, ?_⟩
    rw [hlast]
    exact hT.le
  · intro k hk hk2 hk3
    have hk' : k < xs.length := by simpa using hk2
    rw [hidx k hk hk']
    have hq : (xs.map Prod.fst).get ⟨k, hk2⟩ = (xs.get ⟨k, hk'⟩).1 := by
      simp [List.get_eq_getElem]
    have hqd : (xs.map Prod.snd).get ⟨k, hk3⟩ = (xs.get ⟨k, hk'⟩).2 := by
      simp [List.get_eq_getElem]
    rw [hq, hqd]

theorem fdyn_fixed_dt_resample_witness :
    ∃ r : FdynResult 1,
      fdyn R1 1 (fun _ => 0) none none (some (1/2)) [⟨[], some (1, (0, 0))⟩] = .ok r ∧
      r.t = arangeQ 1 (1/2) ∧
      (∀ s : ℚ, s ∈ r.t ↔ ∃ k : ℕ, s = (k : ℚ) * (1/2) ∧ s < 1) ∧
      (∀ s ∈ r.t, 0 ≤ s ∧ s < 1 ∧
        s ≤ ((((0 : ℚ), ((fun _ => 0), (Option.none).getD 0)) :: [((1 : ℚ), ((0 : Vec 1), (0 : Vec 1)))]).getLast
          (List.cons_ne_nil _ _)).1) ∧
      r.q.length = r.t.length ∧ r.qd.length = r.t.length ∧
      (∀ (k : ℕ) (hk : k < r.t.length) (hk2 : k < r.q.length) (hk3 : k < r.qd.length),
        interp1 (((0 : ℚ), ((fun _ => 0), (Option.none).getD 0)) :: [((1 : ℚ), ((0 : Vec 1), (0 : Vec 1)))])
          (r.t.get ⟨k, hk⟩) = some (r.q.get ⟨k, hk2⟩, r.qd.get ⟨k, hk3⟩)) :=
  fdyn_fixed_dt_resample R1 none 1 (1/2) (fun _ => 0) none
    [⟨[], some (1, (0, 0))⟩] [(1, (0, 0))] rfl
    (fun p hp => by
      rw [List.mem_singleton] at hp
      subst hp
      rfl)
    (List.chain'_cons.mpr ⟨by norm_num, List.chain'_singleton _⟩)
    rfl (by norm_num)

/-- Claim C10: for every `fdyn` call that returns a trajectory, the first
sample is at time `t = 0` with joint coordinates `q0` and velocities `qd0`,
where `qd0` defaults to the zero vector of length `n` when not supplied —
this is the sample seeded into the buffers before any integrator step, and
on the resampled path it is recovered by interpolation at grid point `0`
(which requires `0 < dt` and `0 < T` for the grid to be nonempty). -/
theorem fdyn_initial_sample (R : Robot n) (tf : Option (TorqLaw n)) (T : ℚ)
    (q0 : Vec n) (qd0o : Option (Vec n)) (dt : Option ℚ)
    (plans : List (StepPlan n)) (r : FdynResult n)
    (hnn : ∀ p ∈ plans, ∀ s, p.outcome = some s → (0 : ℚ) ≤ s.1)
    (hdt : dt = none ∨ ∃ d, dt = some d ∧ 0 < d ∧ 0 < T)
    (hok : fdyn R T q0 tf qd0o dt plans = .ok r) :
    r.t.head? = some 0 ∧ r.q.head? = some q0 ∧ r.qd.head? = some (qd0o.getD 0) := by
  unfold fdyn at hok
  cases hloop : fdynLoop R tf plans [((0 : ℚ), (q0, qd0o.getD 0))] with
  | error msg =>
    rw [hloop] at hok
    simp at hok
  | ok samples =>
    rw [hloop] at hok
    obtain ⟨tail, htail, hmem⟩ := fdynLoop_ok_inv R tf plans _ samples hloop
    rcases hdt with hdt | ⟨d, hdt, hdpos, hTpos⟩
    · subst hdt
      have hr : r = ⟨samples.map Prod.fst, samples.map (fun s => s.2.1),
          samples.map (fun s => s.2.2)⟩ := (Except.ok.inj hok).symm
      subst hr
      rw [htail]
      refine ⟨rfl, rfl, rfl⟩
    · subst hdt
      have hok' : (match interpAll samples (arangeQ T d) with
          | none => (.error "interpolation out of range" : Except String (FdynResult n))
          | some xs => .ok ⟨arangeQ T d, xs.map Prod.fst, xs.map Prod.snd⟩) = .ok r := hok
      cases hint : interpAll samples (arangeQ T d) with
      | none =>
        rw [hint] at hok'
        simp at hok'
      | some xs =>
        rw [hint] at hok'
        have hr : r = ⟨arangeQ T d, xs.map Prod.fst, xs.map Prod.snd⟩ :=
          (Except.ok.inj hok').symm
        subst hr
        have hhead := arangeQ_head T d hdpos hTpos
        obtain ⟨rest, hrest⟩ : ∃ rest, arangeQ T d = 0 :: rest := by
          cases harr : arangeQ T d with
          | nil => rw [harr] at hhead; simp at hhead
          | cons a rest =>
            rw [harr] at hhead
            simp at hhead
            exact ⟨rest, by rw [hhead]⟩
        rw [hrest] at hint
        rw [interpAll] at hint
        have hi0 : interp1 samples (0 : ℚ) = some (q0, qd0o.getD 0) := by
          rw [htail]
          apply interp1_at_head
          intro s hs
          obtain ⟨p, hp, hpo⟩ := hmem s hs
          exact hnn p hp s hpo
        rw [hi0] at hint
        cases hint2 : interpAll samples rest with
        | none =>
          rw [hint2] at hint
          simp at hint
        | some xs' =>
          rw [hint2] at hint
          simp at hint
          rw [hrest, ← hint]
          refine ⟨rfl, rfl, rfl⟩

theorem fdyn_initial_sample_witness :
    (FdynResult.t ⟨[(0 : ℚ)], [(fun _ => (2 : ℚ) : Vec 1)], [(0 : Vec 1)]⟩).head? = some 0 ∧
    (FdynResult.q ⟨[(0 : ℚ)], [(fun _ => (2 : ℚ) : Vec 1)], [(0 : Vec 1)]⟩).head? = some (fun _ => 2) ∧
    (FdynResult.qd ⟨[(0 : ℚ)], [(fun _ => (2 : ℚ) : Vec 1)], [(0 : Vec 1)]⟩).head?
      = some ((Option.none).getD 0) :=
  fdyn_initial_sample R1 none 5 (fun _ => 2) none none [] _
    (fun p hp => absurd hp (List.not_mem_nil p)) (Or.inl rfl) rfl

/-! ## Robot variant factories (`nofriction`, `perterb`) and aliasing

Python Link objects are mutable heap values.  To state that the variant
factories share no mutable link state with the source robot, the object graph
is made explicit: a `Store` is the heap of Link objects, and an `HRobot`
holds references (indices) into it.  `nofriction` builds fresh copies from
`Link.nofriction`; `perterb` first deep-copies the robot (`Robot._copy`,
external, modelled from the spec) and then mutates the *copied* links in
place, exactly as the source does (`r2.links[i].m = r2.links[i].m * s`,
then the same for `I` with a fresh draw). -/

/-- A heap of Link objects: `nxt` is the next free address. -/
structure Store where
  nxt : ℕ
  mem : ℕ → Link

/-- A robot as an object graph: named handle plus references to its links. -/
structure HRobot (n : ℕ) where
  hname : String
  idx : Fin n → ℕ

/-- In-place update of one heap cell (a Python attribute assignment). -/
def Store.setL (st : Store) (k : ℕ) (l : Link) : Store :=
  ⟨st.nxt, fun j => if j = k then l else st.mem j⟩

/-- Allocate `n` fresh Link objects with contents `f`, at addresses
`st.nxt + i`. -/
def Store.allocN (st : Store) (f : Fin n → Link) : Store × (Fin n → ℕ) :=
  (⟨st.nxt + n,
    fun k => if h : st.nxt ≤ k ∧ k < st.nxt + n then f ⟨k - st.nxt, by omega⟩
      else st.mem k⟩,
   fun i => st.nxt + i)

/-- `nofriction` on the object graph: a shallow copy of the robot whose
`_links` list is replaced by freshly allocated friction-zeroed copies. -/
def nofrictionH (R : HRobot n) (st : Store) (coulomb viscous : Bool) :
    HRobot n × Store :=
  let a := st.allocN (fun i => (st.mem (R.idx i)).nofriction coulomb viscous)
  (⟨"NF/" ++ R.hname, a.2⟩, a.1)

/-- Modelled from the spec: `Robot._copy` (defined outside this file) makes a
value-semantics snapshot — a new Robot whose links are deep copies, sharing
no link objects with the original. -/
def copyH (R : HRobot n) (st : Store) : HRobot n × Store :=
  let a := st.allocN (fun i => st.mem (R.idx i))
  (⟨R.hname, a.2⟩, a.1)

/-- One iteration of the `perterb` loop on link `i` of the copy: scale the
mass by the draw `a`, then scale the inertia by the independent draw `b`,
both as in-place attribute assignments. -/
def perturbStep (st : Store) (k : ℕ) (a b : ℚ) : Store :=
  let st1 := st.setL k { st.mem k with m := (st.mem k).m * a }
  st1.setL k { st1.mem k with I := b • (st1.mem k).I }

/-- `perterb(p)` on the object graph, with the random draws `s1 i` (mass)
and `s2 i` (inertia) supplied externally: `r2 = self._copy()`, tag the name,
then mutate each of `r2`'s links in place. -/
def perterbH (R : HRobot n) (st : Store) (s1 s2 : Fin n → ℚ) :
    HRobot n × Store :=
  let rc := copyH R st
  let r2 : HRobot n := ⟨"P/" ++ R.hname, rc.1.idx⟩
  (r2, (List.finRange n).foldl
    (fun acc i => perturbStep acc (r2.idx i) (s1 i) (s2 i)) rc.2)

theorem perturbStep_untouched (st : Store) (k k' : ℕ) (a b : ℚ) (h : k' ≠ k) :
    (perturbStep st k a b).mem k' = st.mem k' := by
  unfold perturbStep Store.setL
  simp [h]

theorem foldl_perturb_untouched (r2 : HRobot n) (s1 s2 : Fin n → ℚ) (k : ℕ)
    (hk : ∀ i : Fin n, r2.idx i ≠ k) :
    ∀ (L : List (Fin n)) (acc : Store),
      (L.foldl (fun acc i => perturbStep acc (r2.idx i) (s1 i) (s2 i)) acc).mem k
        = acc.mem k := by
  intro L
  induction L with
  | nil => intro acc; rfl
  | cons i L' ih =>
    intro acc
    rw [List.foldl_cons, ih]
    exact perturbStep_untouched acc (r2.idx i) k (s1 i) (s2 i)
      (fun hc => hk i (hc ▸ rfl))

/-- Claim C9: `nofriction` and `perterb` each return a new Robot whose links
are disjoint from the source's links (no shared mutable link state), and
every dynamic parameter of the source's links — every heap cell the source
references — is left unchanged, even though `perterb` mutates link
attributes in place (on the deep copy). -/
theorem variant_factories_pure (R : HRobot n) (st : Store) (c v : Bool)
    (s1 s2 : Fin n → ℚ) (hvalid : ∀ i : Fin n, R.idx i < st.nxt) :
    (∀ i : Fin n, ((nofrictionH R st c v).2).mem (R.idx i) = st.mem (R.idx i)) ∧
    (∀ i j : Fin n, ((nofrictionH R st c v).1).idx i ≠ R.idx j) ∧
    (∀ i : Fin n, ((perterbH R st s1 s2).2).mem (R.idx i) = st.mem (R.idx i)) ∧
    (∀ i j : Fin n, ((perterbH R st s1 s2).1).idx i ≠ R.idx j) := by
  have halloc : ∀ (f : Fin n → Link) (k : ℕ), k < st.nxt →
      (st.allocN f).1.mem k = st.mem k := by
    intro f k hklt
    unfold Store.allocN
    simp only
    rw [dif_neg (by omega)]
  refine ⟨?_, ?_, ?_, ?_⟩
  · intro i
    exact halloc (fun i' => (st.mem (R.idx i')).nofriction c v) (R.idx i) (hvalid i)
  · intro i j
    have h1 : ((nofrictionH R st c v).1).idx i = st.nxt + i := rfl
    rw [h1]
    have := hvalid j
    omega
  · intro i
    unfold perterbH
    simp only
    rw [foldl_perturb_untouched _ s1 s2 (R.idx i)
      (fun i' => by
        have h1 : (copyH R st).1.idx i' = st.nxt + i' := rfl
        have := hvalid i
        simp only [h1]
        omega)]
    exact halloc (fun i' => st.mem (R.idx i')) (R.idx i) (hvalid i)
  · intro i j
    have h1 : ((perterbH R st s1 s2).1).idx i = st.nxt + i := rfl
    rw [h1]
    have := hvalid j
    omega

/-- A one-link robot handle and a one-cell heap, for the C9 witness. -/
def H0 : HRobot 1 := ⟨"r", fun _ => 0⟩

def st0 : Store := ⟨1, fun _ => L0⟩

theorem variant_factories_pure_witness :
    (∀ i : Fin 1, ((nofrictionH H0 st0 true true).2).mem (H0.idx i) = st0.mem (H0.idx i)) ∧
    (∀ i j : Fin 1, ((nofrictionH H0 st0 true true).1).idx i ≠ H0.idx j) ∧
    (∀ i : Fin 1, ((perterbH H0 st0 (fun _ => 2) (fun _ => 3)).2).mem (H0.idx i)
      = st0.mem (H0.idx i)) ∧
    (∀ i j : Fin 1, ((perterbH H0 st0 (fun _ => 2) (fun _ => 3)).1).idx i ≠ H0.idx j) :=
  variant_factories_pure H0 st0 true true
    (fun _ => 2) (fun _ => 3) (fun _ => Nat.zero_lt_one)

end Dynamics
